import Mathlib

/-!
Formal model of the `VaultBoundary` path-sanitization component of the
Triple-Crown Obsidian plugin (`src/security/vault-boundary.ts`), together with
proofs about its containment and hidden-file policy.

The component is written in TypeScript against Node's `path` module (posix
flavour) and Obsidian's `normalizePath` helper.  The model below embeds those
library functions as pure Lean functions over `String` (a path is a string;
a resolved path is represented by its list of `/`-separated segments):

* `resolve cwd p` models Node `path.resolve(p)` run with current working
  directory `cwd`: an absolute `p` is normalized on its own, a relative `p`
  is first joined onto `cwd`.  Normalization collapses empty and `.` segments
  and lets `..` pop the previous segment (at the root, `..` is dropped).
  Symlink resolution and Windows drive handling do not apply (posix rules,
  `\` is an ordinary character).
* `joinPath a b` models Node `path.join(a, b)`; `relative cwd a b` models
  Node `path.relative(a, b)` (which resolves both arguments against the
  current working directory first).
* `obNormalizePath` models Obsidian's `normalizePath` (backslashes to
  slashes, collapse runs of slashes, trim leading/trailing slashes,
  non-breaking spaces to plain spaces; empty result becomes `/`).  Unicode
  NFC normalization is modelled as the identity (all inputs of interest are
  ASCII).

`path.resolve` can throw in JavaScript; the `try`/`catch` blocks of the
source are modelled by the `...R` variants, which take the resolver as an
`Option`-valued function (`none` = the library call threw).
-/

/-- One `/`-separated component of a path. -/
abbrev Seg := List Char

/-- Split a character list at every `/` (like JavaScript `s.split("/")`):
the result always has at least one (possibly empty) component. -/
def splitSlash : List Char → List Seg
  | [] => [[]]
  | c :: cs =>
    let r := splitSlash cs
    if c = '/' then [] :: r else (c :: r.headI) :: r.tail

/-- A posix path is absolute iff it starts with `/`. -/
def isAbsoluteL : List Char → Bool
  | c :: _ => c == '/'
  | [] => false

/-- One step of Node path normalization for an absolute path: drop empty and
`.` components, let `..` remove the previously accepted component (or be
dropped at the root), and keep everything else. -/
def normStep (acc : List Seg) (seg : Seg) : List Seg :=
  if seg = [] ∨ seg = ['.'] then acc
  else if seg = ['.', '.'] then acc.dropLast
  else acc ++ [seg]

/-- Normalize the segments of an absolute path. -/
def normFold (segs : List Seg) : List Seg :=
  segs.foldl normStep []

/-- One step of Node path normalization for a relative path: as `normStep`,
except that a `..` which cannot pop anything is kept. -/
def normRelStep (acc : List Seg) (seg : Seg) : List Seg :=
  if seg = [] ∨ seg = ['.'] then acc
  else if seg = ['.', '.'] then
    match acc.getLast? with
    | none => [['.', '.']]
    | some l => if l = ['.', '.'] then acc ++ [seg] else acc.dropLast
  else acc ++ [seg]

/-- Interleave path segments with `/` (like JavaScript `segs.join("/")`). -/
def joinSegsL : List Seg → List Char
  | [] => []
  | [s] => s
  | s :: t :: rest => s ++ '/' :: joinSegsL (t :: rest)

/-- Render normalized absolute-path segments as a string. -/
def segsToAbs (segs : List Seg) : String :=
  ⟨'/' :: joinSegsL segs⟩

/-- The normalized segments of `path.resolve(p)` under working directory
`cwd`. -/
def resolveSegs (cwd p : String) : List Seg :=
  if isAbsoluteL p.toList then normFold (splitSlash p.toList)
  else normFold (splitSlash (cwd.toList ++ '/' :: p.toList))

/-- Node `path.resolve(p)` under working directory `cwd`. -/
def resolve (cwd p : String) : String :=
  segsToAbs (resolveSegs cwd p)

/-- JavaScript `s.startsWith(pre)`. -/
def jsStartsWith (s pre : String) : Bool :=
  pre.toList.isPrefixOf s.toList

/-- Node `path.join(a, b)` (for inputs without trailing slashes, which is all
the component ever passes): empty parts are skipped, the rest is joined with
`/` and normalized; an empty relative result is `.`. -/
def joinPath (a b : String) : String :=
  let cs := if a = "" then b.toList
            else if b = "" then a.toList
            else a.toList ++ '/' :: b.toList
  if isAbsoluteL cs then ⟨'/' :: joinSegsL (List.foldl normStep [] (splitSlash cs))⟩
  else
    match joinSegsL (List.foldl normRelStep [] (splitSlash cs)) with
    | [] => "."
    | out => ⟨out⟩

/-- The segments of Node `path.relative(f, t)`: resolve both arguments, drop
the common leading segments, then climb with `..` and descend into the rest. -/
def dropCommon : List Seg → List Seg → List Seg × List Seg
  | x :: xs, y :: ys =>
    if x = y then dropCommon xs ys else (x :: xs, y :: ys)
  | xs, ys => (xs, ys)

/-- Node `path.relative(f, t)` under working directory `cwd`. -/
def relative (cwd f t : String) : String :=
  let p := dropCommon (resolveSegs cwd f) (resolveSegs cwd t)
  ⟨joinSegsL (p.1.map (fun _ => ['.', '.']) ++ p.2)⟩

/-- Obsidian's `normalizePath`: non-breaking spaces become spaces,
backslashes become slashes, runs of slashes collapse, leading and trailing
slashes are trimmed, and an empty result becomes `/`. -/
def obNormalizePath (s : String) : String :=
  let cs := s.toList.map fun c =>
    if c = ' ' ∨ c = ' ' then ' '
    else if c = '\\' then '/'
    else c
  match (splitSlash cs).filter (· ≠ []) with
  | [] => "/"
  | segs => ⟨joinSegsL segs⟩

/-- The `'read' | 'write' | 'delete'` operation kind of
`VaultBoundary.validateFileOperation`. -/
inductive Operation
  | read
  | write
  | delete
deriving DecidableEq

/-- `VaultBoundary.isPathInVault`: resolve the candidate and the cached vault
root and compare with JavaScript `String.startsWith` (the source performs a
plain prefix check, with no separator-boundary test). -/
def isPathInVault (cwd vaultPath testPath : String) : Bool :=
  jsStartsWith (resolve cwd testPath) (resolve cwd vaultPath)

/-- `VaultBoundary.sanitizePath`: a relative input is Obsidian-normalized and
joined onto the vault root; an absolute input is used as given.  The result
is returned only if `isPathInVault` accepts it, otherwise `null`. -/
def sanitizePath (cwd vaultPath inputPath : String) : Option String :=
  if !(isAbsoluteL inputPath.toList) then
    let vaultRelativePath := obNormalizePath inputPath
    let absolutePath := joinPath vaultPath vaultRelativePath
    if isPathInVault cwd vaultPath absolutePath then some absolutePath else none
  else
    if isPathInVault cwd vaultPath inputPath then some inputPath else none

/-- `VaultBoundary.getRelativePath`: `null` outside the vault, otherwise
`path.relative(vaultPath, absolutePath)`. -/
def getRelativePath (cwd vaultPath absolutePath : String) : Option String :=
  if !(isPathInVault cwd vaultPath absolutePath) then none
  else some (relative cwd vaultPath absolutePath)

/-- The test of the JavaScript regular expression `/^\.[^\/]+/`: the string
starts with `.` followed by at least one character other than `/`. -/
def matchesHiddenRe (s : String) : Bool :=
  match s.toList with
  | c :: c2 :: _ => c == '.' && c2 != '/'
  | _ => false

/-- `VaultBoundary.validateFileOperation`: containment check, then the
`.obsidian/` rule (with the `.obsidian/plugins/triple-crown/` carve-out),
then the hidden-file rule (with the `.claude/` carve-out).  In the source
`if (!relativePath) return false` also fires on the empty string, JavaScript
treating `""` as falsy. -/
def validateFileOperation (cwd vaultPath filePath : String) (_operation : Operation) : Bool :=
  if !(isPathInVault cwd vaultPath filePath) then false
  else
    match getRelativePath cwd vaultPath filePath with
    | none => false
    | some relativePath =>
      if relativePath = "" then false
      else if jsStartsWith relativePath ".obsidian/" &&
              !(jsStartsWith relativePath ".obsidian/plugins/triple-crown/") then false
      else if matchesHiddenRe relativePath &&
              !(jsStartsWith relativePath ".claude/") then false
      else true

/-- The `SecurityContext` record of `vault-boundary.ts`. -/
structure SecurityContext where
  vaultPath : String
  allowedPaths : List String
  blockedPaths : List String
  maxFileSize : Nat
  allowedExtensions : List String
deriving DecidableEq

/-- `VaultBoundary.createSecurityContext`. -/
def createSecurityContext (vaultPath : String) : SecurityContext :=
  { vaultPath := vaultPath
    allowedPaths := [vaultPath]
    blockedPaths := [joinPath vaultPath ".obsidian", joinPath vaultPath ".git"]
    maxFileSize := 10 * 1024 * 1024
    allowedExtensions := [".md", ".txt", ".json", ".yaml", ".yml",
                          ".csv", ".tsv", ".html", ".xml"] }

/-- `VaultBoundary.isPathInVault` with the resolver exposed as a fallible
function (`none` models `path.resolve` throwing): any resolution failure is
caught and answered with `false`. -/
def isPathInVaultR (res : String → Option String) (vaultPath testPath : String) : Bool :=
  match res testPath, res vaultPath with
  | some t, some v => jsStartsWith t v
  | _, _ => false

/-- `VaultBoundary.sanitizePath` with the resolver exposed as a fallible
function: any resolution failure makes the containment check `false`, so the
result is `null` and no exception escapes. -/
def sanitizePathR (res : String → Option String) (vaultPath inputPath : String) :
    Option String :=
  if !(isAbsoluteL inputPath.toList) then
    let absolutePath := joinPath vaultPath (obNormalizePath inputPath)
    if isPathInVaultR res vaultPath absolutePath then some absolutePath else none
  else
    if isPathInVaultR res vaultPath inputPath then some inputPath else none

/-- A segment of a normalized resolved path: nonempty, not `.`, not `..`,
and containing no `/`. -/
def cleanSeg (s : Seg) : Prop :=
  s ≠ [] ∧ s ≠ ['.'] ∧ s ≠ ['.', '.'] ∧ '/' ∉ s

example : resolve "/" "/a//b/./c/../d" = "/a/b/d" := by decide
example : resolve "/home/u" "x/y.md" = "/home/u/x/y.md" := by decide
example : resolve "/tmp/test-vault" "../../../etc/hosts" = "/etc/hosts" := by decide
example : joinPath "/vault" "notes/a.md" = "/vault/notes/a.md" := by decide
example : joinPath "/vault" ".." = "/" := by decide
example : joinPath "/vault" "" = "/vault" := by decide
example : relative "/" "/vault" "/vault/a/b" = "a/b" := by decide
example : relative "/" "/vault" "/vault" = "" := by decide
example : relative "/" "/vault" "/vaultx/f" = "../vaultx/f" := by decide
example : obNormalizePath "a\\b//c/" = "a/b/c" := by decide
example : isPathInVault "/" "/vault" "/vaultx/file.md" = true := by decide
example : sanitizePath "/" "/vault" "notes/example.md" = some "/vault/notes/example.md" := by
  decide
example : validateFileOperation "/" "/vault" "/vault/.env" .read = false := by decide
example : validateFileOperation "/" "/vault" "/vault/.claude/config.json" .read = true := by
  decide

/-! ### Basic facts about the path model -/

theorem splitSlash_ne_nil : ∀ cs : List Char, splitSlash cs ≠ [] := by
  intro cs
  cases cs with
  | nil => simp [splitSlash]
  | cons c cs =>
    simp only [splitSlash]
    split <;> simp

theorem no_slash_of_mem_splitSlash :
    ∀ (cs : List Char) (s : Seg), s ∈ splitSlash cs → '/' ∉ s := by
  intro cs
  induction cs with
  | nil =>
    intro s hs
    simp [splitSlash] at hs
    simp [hs]
  | cons c cs ih =>
    intro s hs
    simp only [splitSlash] at hs
    by_cases hc : c = '/'
    · rw [if_pos hc] at hs
      rcases List.mem_cons.mp hs with h | h
      · simp [h]
      · exact ih s h
    · rw [if_neg hc] at hs
      cases hr : splitSlash cs with
      | nil => exact absurd hr (splitSlash_ne_nil cs)
      | cons t rest =>
        rw [hr] at hs
        simp only [List.headI_cons, List.tail_cons] at hs
        rcases List.mem_cons.mp hs with h | h
        · subst h
          intro hmem
          rcases List.mem_cons.mp hmem with h' | h'
          · exact hc h'.symm
          · exact ih t (by simp [hr]) h'
        · exact ih s (by simp [hr, h])

theorem splitSlash_append (xs ys : List Char) :
    splitSlash (xs ++ '/' :: ys) = splitSlash xs ++ splitSlash ys := by
  induction xs with
  | nil =>
    simp [splitSlash]
  | cons c xs ih =>
    simp only [List.cons_append, splitSlash]
    by_cases hc : c = '/'
    · simp [hc, ih]
    · rw [if_neg hc, if_neg hc]
      cases hr : splitSlash xs with
      | nil => exact absurd hr (splitSlash_ne_nil xs)
      | cons t rest => simp [ih, hr]

theorem splitSlash_of_no_slash (cs : List Char) (h : '/' ∉ cs) :
    splitSlash cs = [cs] := by
  induction cs with
  | nil => rfl
  | cons c cs ih =>
    have hc : c ≠ '/' := fun hc => h (by simp [hc])
    have hcs : '/' ∉ cs := fun hm => h (List.mem_cons_of_mem _ hm)
    simp [splitSlash, if_neg hc, ih hcs]

theorem cleanSeg_of_mem_foldl_normStep :
    ∀ (segs : List Seg) (acc : List Seg),
      (∀ s ∈ acc, cleanSeg s) → (∀ s ∈ segs, '/' ∉ s) →
      ∀ s ∈ List.foldl normStep acc segs, cleanSeg s := by
  intro segs
  induction segs with
  | nil => exact fun acc h _ s hs => h s hs
  | cons a rest ih =>
    intro acc hacc hseg s hs
    simp only [List.foldl_cons] at hs
    refine ih (normStep acc a) ?_ (fun t ht => hseg t (List.mem_cons_of_mem _ ht)) s hs
    intro t ht
    unfold normStep at ht
    split at ht
    · exact hacc t ht
    · split at ht
      · exact hacc t ((List.dropLast_sublist acc).subset ht)
      · rcases List.mem_append.mp ht with h1 | h2
        · exact hacc t h1
        · rename_i hne hne2
          simp only [List.mem_singleton] at h2
          subst h2
          push_neg at hne
          exact ⟨hne.1, hne.2, hne2, hseg _ (List.mem_cons_self _ _)⟩

theorem cleanSeg_of_mem_normFold (cs : List Char) :
    ∀ s ∈ normFold (splitSlash cs), cleanSeg s :=
  cleanSeg_of_mem_foldl_normStep (splitSlash cs) [] (by simp)
    (no_slash_of_mem_splitSlash cs)

theorem cleanSeg_of_mem_resolveSegs (cwd p : String) :
    ∀ s ∈ resolveSegs cwd p, cleanSeg s := by
  unfold resolveSegs
  split
  · exact cleanSeg_of_mem_normFold _
  · exact cleanSeg_of_mem_normFold _

theorem joinSegsL_cons (s : Seg) (rest : List Seg) :
    joinSegsL (s :: rest) = s ++ if rest = [] then [] else '/' :: joinSegsL rest := by
  cases rest with
  | nil => simp [joinSegsL]
  | cons t r => simp [joinSegsL]

theorem joinSegsL_append (A B : List Seg) (hA : A ≠ []) (hB : B ≠ []) :
    joinSegsL (A ++ B) = joinSegsL A ++ '/' :: joinSegsL B := by
  induction A with
  | nil => exact absurd rfl hA
  | cons a A ih =>
    cases hAe : A with
    | nil =>
      subst hAe
      rw [List.cons_append, List.nil_append, joinSegsL_cons a B, joinSegsL_cons a []]
      simp [hB]
    | cons a' A' =>
      subst hAe
      rw [List.cons_append, joinSegsL_cons a (a' :: A' ++ B), ih (by simp),
        joinSegsL_cons a (a' :: A')]
      simp

theorem joinSegsL_ne_nil (S : List Seg) (hS : S ≠ []) (h : ∀ s ∈ S, s ≠ []) :
    joinSegsL S ≠ [] := by
  cases S with
  | nil => exact absurd rfl hS
  | cons s rest =>
    rw [joinSegsL_cons]
    intro hcontra
    rcases List.append_eq_nil.mp hcontra with ⟨h1, _⟩
    exact h s (List.mem_cons_self s rest) h1

theorem dropCommon_spec :
    ∀ f t : List Seg, ∃ c, f = c ++ (dropCommon f t).1 ∧ t = c ++ (dropCommon f t).2 := by
  intro f
  induction f with
  | nil => exact fun t => ⟨[], by cases t <;> simp [dropCommon]⟩
  | cons x xs ih =>
    intro t
    cases t with
    | nil => exact ⟨[], by simp [dropCommon]⟩
    | cons y ys =>
      by_cases hxy : x = y
      · obtain ⟨c, hc1, hc2⟩ := ih ys
        subst hxy
        refine ⟨x :: c, ?_, ?_⟩ <;> simp [dropCommon, ← hc1, ← hc2]
      · exact ⟨[], by simp [dropCommon, if_neg hxy]⟩

theorem splitPre_of_append_cons (R : List Char) :
    ∀ (A : List Char) (b : Char) (B : List Char), R <+: A ++ b :: B →
      R <+: A ∨ ∃ u, R = A ++ b :: u ∧ u <+: B := by
  intro A
  induction A generalizing R with
  | nil =>
    intro b B h
    rcases List.prefix_cons_iff.mp h with h0 | ⟨t, ht, htB⟩
    · exact Or.inl (by simp [h0])
    · exact Or.inr ⟨t, by simp [ht], htB⟩
  | cons a A ih =>
    intro b B h
    rw [List.cons_append] at h
    rcases List.prefix_cons_iff.mp h with h0 | ⟨t, ht, htB⟩
    · exact Or.inl (by simp [h0])
    · rcases ih t b B htB with h1 | ⟨u, hu, huB⟩
      · exact Or.inl (by rw [ht]; exact List.cons_prefix_cons.mpr ⟨rfl, h1⟩)
      · exact Or.inr ⟨u, by rw [ht, hu]; simp, huB⟩

theorem jsStartsWith_eq (s pre : String) :
    jsStartsWith s pre = true ↔ pre.toList <+: s.toList :=
  List.isPrefixOf_iff_prefix

theorem toList_mk (cs : List Char) : (⟨cs⟩ : String).toList = cs := rfl

theorem mk_eq_empty_iff (cs : List Char) : (⟨cs⟩ : String) = "" ↔ cs = [] := by
  constructor
  · intro h
    have := congrArg String.toList h
    simpa using this
  · intro h
    subst h
    rfl

/-! ### Structural lemmas about the boundary operations -/

theorem validate_true_iff (cwd vaultPath filePath : String) (op : Operation) :
    validateFileOperation cwd vaultPath filePath op = true ↔
      isPathInVault cwd vaultPath filePath = true ∧
      relative cwd vaultPath filePath ≠ "" ∧
      ¬(jsStartsWith (relative cwd vaultPath filePath) ".obsidian/" = true ∧
        ¬jsStartsWith (relative cwd vaultPath filePath) ".obsidian/plugins/triple-crown/" = true) ∧
      ¬(matchesHiddenRe (relative cwd vaultPath filePath) = true ∧
        ¬jsStartsWith (relative cwd vaultPath filePath) ".claude/" = true) := by
  unfold validateFileOperation getRelativePath
  by_cases h1 : isPathInVault cwd vaultPath filePath = true
  all_goals by_cases h2 : relative cwd vaultPath filePath = ""
  all_goals by_cases h3 : jsStartsWith (relative cwd vaultPath filePath) ".obsidian/" = true
  all_goals by_cases h4 :
    jsStartsWith (relative cwd vaultPath filePath) ".obsidian/plugins/triple-crown/" = true
  all_goals by_cases h5 : matchesHiddenRe (relative cwd vaultPath filePath) = true
  all_goals by_cases h6 : jsStartsWith (relative cwd vaultPath filePath) ".claude/" = true
  all_goals simp_all [Bool.not_eq_true]

theorem isAbsoluteL_iff (l : List Char) : isAbsoluteL l = true ↔ ∃ t, l = '/' :: t := by
  cases l with
  | nil => simp [isAbsoluteL]
  | cons c cs =>
    simp only [isAbsoluteL, beq_iff_eq]
    constructor
    · intro h
      exact ⟨cs, by rw [h]⟩
    · rintro ⟨t, ht⟩
      exact (List.cons.injEq _ _ _ _ ▸ ht).1

theorem jsStartsWith_eq_false (s pre : String) :
    jsStartsWith s pre = false ↔ ¬ pre.toList <+: s.toList := by
  constructor
  · intro h hp
    rw [(jsStartsWith_eq s pre).mpr hp] at h
    cases h
  · intro h
    cases hb : jsStartsWith s pre
    · rfl
    · exact absurd ((jsStartsWith_eq s pre).mp hb) h

theorem matchesHiddenRe_two (c c2 : Char) (rest : List Char) :
    matchesHiddenRe ⟨c :: c2 :: rest⟩ = (c == '.' && c2 != '/') := rfl

theorem sanitize_sound (cwd vaultPath p x : String)
    (h : sanitizePath cwd vaultPath p = some x) :
    isPathInVault cwd vaultPath x = true := by
  unfold sanitizePath at h
  split at h
  · dsimp only at h
    split at h
    · rename_i hin
      injection h with h'
      subst h'
      exact hin
    · cases h
  · split at h
    · rename_i hin
      injection h with h'
      subst h'
      exact hin
    · cases h

theorem joinPath_abs (a b : String) (ha : isAbsoluteL a.toList = true) :
    isAbsoluteL (joinPath a b).toList = true := by
  obtain ⟨t, ht⟩ := (isAbsoluteL_iff _).mp ha
  have hane : a ≠ "" := by
    intro hcontra
    rw [hcontra] at ht
    simp at ht
  simp only [joinPath]
  rw [if_neg hane]
  by_cases hb : b = ""
  · rw [if_pos hb]
    rw [ha]
    simp [toList_mk, isAbsoluteL]
  · rw [if_neg hb]
    have : isAbsoluteL (a.toList ++ '/' :: b.toList) = true := by
      rw [ht]
      simp [isAbsoluteL]
    rw [this]
    simp [toList_mk, isAbsoluteL]

theorem sanitize_abs (cwd vaultPath p x : String)
    (hv : isAbsoluteL vaultPath.toList = true)
    (h : sanitizePath cwd vaultPath p = some x) :
    isAbsoluteL x.toList = true := by
  unfold sanitizePath at h
  split at h
  · dsimp only at h
    split at h
    · injection h with h'
      subst h'
      exact joinPath_abs _ _ hv
    · cases h
  · rename_i habs
    split at h
    · injection h with h'
      subst h'
      simpa using habs
    · cases h

theorem matchesHiddenRe_of_toList (s : String) (c c2 : Char) (rest : List Char)
    (h : s.toList = c :: c2 :: rest) :
    matchesHiddenRe s = (c == '.' && c2 != '/') := by
  unfold matchesHiddenRe
  rw [h]

/-! ### Claims -/

/-- Claim C1 (code bug): with vault root `/vault` the code accepts
`/vaultx/file.md`.  `path.resolve` keeps both strings unchanged, and the
source's plain `startsWith` prefix check succeeds even though the character
following the root in the candidate is `x`, not a path separator, so the
required separator-boundary rejection does not happen. -/
theorem C1_vaultx_accepted :
    isPathInVault "/" "/vault" "/vaultx/file.md" = true ∧
    resolve "/" "/vaultx/file.md" = "/vaultx/file.md" ∧
    resolve "/" "/vault" = "/vault" ∧
    jsStartsWith "/vaultx/file.md" "/vault/" = false ∧
    ("/vaultx/file.md" : String) ≠ "/vault" := by
  decide

/-- Claim C3: for paths inside the vault root `/vault`, reading `.git/config`,
`.env` and `.obsidian/config.json` is denied and reading
`.claude/config.json` is allowed. -/
theorem C3_sensitive_files :
    validateFileOperation "/" "/vault" "/vault/.git/config" Operation.read = false ∧
    validateFileOperation "/" "/vault" "/vault/.env" Operation.read = false ∧
    validateFileOperation "/" "/vault" "/vault/.obsidian/config.json" Operation.read = false ∧
    validateFileOperation "/" "/vault" "/vault/.claude/config.json" Operation.read = true := by
  decide

/-- Claim C4: both boundary checks fail closed.  With the resolver modelled
as a fallible function (`none` = `path.resolve` threw), a resolution failure
on the candidate (and, for relative inputs, on the joined candidate) makes
`isPathInVault` answer `false` and `sanitizePath` answer `none`; being total
Lean functions, neither can signal anything other than these values. -/
theorem C4_fail_closed (res : String → Option String) (vaultPath p : String)
    (hp : res p = none)
    (hj : res (joinPath vaultPath (obNormalizePath p)) = none) :
    isPathInVaultR res vaultPath p = false ∧ sanitizePathR res vaultPath p = none := by
  have hfirst : isPathInVaultR res vaultPath p = false := by
    unfold isPathInVaultR
    rw [hp]
  refine ⟨hfirst, ?_⟩
  unfold sanitizePathR
  split
  · dsimp only
    have hfalse : isPathInVaultR res vaultPath (joinPath vaultPath (obNormalizePath p)) = false := by
      unfold isPathInVaultR
      rw [hj]
    rw [hfalse]
    simp
  · rw [hfirst]
    simp

theorem C4_fail_closed_witness :
    isPathInVaultR (fun _ => none) "/vault" "/etc/passwd" = false ∧
    sanitizePathR (fun _ => none) "/vault" "/etc/passwd" = none :=
  C4_fail_closed (fun _ => none) "/vault" "/etc/passwd" rfl rfl

/-- Claim C5 (counterexample): `sanitizePath` hands an absolute input back
unchanged, so its result need not be normalized: `/vault/./a` is accepted and
returned as is, yet its normalized form is `/vault/a`. -/
theorem C5_counterexample :
    sanitizePath "/" "/vault" "/vault/./a" = some "/vault/./a" ∧
    resolve "/" "/vault/./a" = "/vault/a" ∧
    ("/vault/./a" : String) ≠ "/vault/a" := by
  decide

/-- Claim C5 (amended): every value returned by `sanitizePath` satisfies
`isPathInVault` (though an absolute input is returned as given, not
re-normalized), and the two relative test inputs produce non-null absolute
descendants of the root. -/
theorem C5_amended :
    (∀ cwd vaultPath p x, sanitizePath cwd vaultPath p = some x →
      isPathInVault cwd vaultPath x = true) ∧
    sanitizePath "/" "/vault" "notes/example.md" = some "/vault/notes/example.md" ∧
    sanitizePath "/" "/vault" "folder/subfolder/file.txt" =
      some "/vault/folder/subfolder/file.txt" ∧
    jsStartsWith "/vault/notes/example.md" "/vault/" = true ∧
    jsStartsWith "/vault/folder/subfolder/file.txt" "/vault/" = true := by
  refine ⟨fun cwd v p x h => sanitize_sound cwd v p x h, ?_, ?_, ?_, ?_⟩ <;> decide

theorem C5_amended_witness :
    isPathInVault "/" "/vault" "/vault/notes/example.md" = true :=
  C5_amended.1 "/" "/vault" "notes/example.md" "/vault/notes/example.md" (by decide)

/-- Claim C8: `sanitizePath` is idempotent on accepted paths (the cached
vault root being an absolute path, as the host adapter supplies it): feeding
an accepted result back in returns the same path. -/
theorem C8_idempotent (cwd vaultPath p x : String)
    (hv : isAbsoluteL vaultPath.toList = true)
    (h : sanitizePath cwd vaultPath p = some x) :
    sanitizePath cwd vaultPath x = some x := by
  have hx : isAbsoluteL x.toList = true := sanitize_abs cwd vaultPath p x hv h
  have hin : isPathInVault cwd vaultPath x = true := sanitize_sound cwd vaultPath p x h
  unfold sanitizePath
  rw [hx]
  simp [hin]

theorem C8_idempotent_witness :
    sanitizePath "/" "/vault" "/vault/a.md" = some "/vault/a.md" :=
  C8_idempotent "/" "/vault" "a.md" "/vault/a.md" (by decide) (by decide)

theorem relative_toList (cwd f t : String) :
    (relative cwd f t).toList =
      joinSegsL ((dropCommon (resolveSegs cwd f) (resolveSegs cwd t)).1.map
          (fun _ => ['.', '.']) ++
        (dropCommon (resolveSegs cwd f) (resolveSegs cwd t)).2) := rfl

theorem head_seg_facts (cwd f t : String) (s : Seg) (rest : List Seg)
    (h : (dropCommon (resolveSegs cwd f) (resolveSegs cwd t)).1.map (fun _ => ['.', '.']) ++
        (dropCommon (resolveSegs cwd f) (resolveSegs cwd t)).2 = s :: rest) :
    s ≠ [] ∧ s ≠ ['.'] ∧ '/' ∉ s := by
  cases hF : (dropCommon (resolveSegs cwd f) (resolveSegs cwd t)).1 with
  | nil =>
    rw [hF, List.map_nil, List.nil_append] at h
    have hs : s ∈ (dropCommon (resolveSegs cwd f) (resolveSegs cwd t)).2 := by
      rw [h]
      exact List.mem_cons_self _ _
    obtain ⟨c, -, hc2⟩ := dropCommon_spec (resolveSegs cwd f) (resolveSegs cwd t)
    have hmem : s ∈ resolveSegs cwd t := by
      rw [hc2]
      exact List.mem_append_right c hs
    obtain ⟨h1, h2, -, h4⟩ := cleanSeg_of_mem_resolveSegs cwd t s hmem
    exact ⟨h1, h2, h4⟩
  | cons a F' =>
    rw [hF, List.map_cons] at h
    have hs : s = ['.', '.'] := (List.cons.injEq _ _ _ _ ▸ h).1.symm
    subst hs
    refine ⟨by simp, by simp, by simp⟩

theorem matchesHidden_of_dot_head (cwd f t : String)
    (hdot : jsStartsWith (relative cwd f t) "." = true) :
    matchesHiddenRe (relative cwd f t) = true := by
  obtain ⟨tl0, htl0⟩ := (jsStartsWith_eq _ _).mp hdot
  have hdot' : (relative cwd f t).toList = '.' :: tl0 := by
    rw [← htl0]
    rfl
  have hrt := relative_toList cwd f t
  cases hL : (dropCommon (resolveSegs cwd f) (resolveSegs cwd t)).1.map
      (fun _ => ['.', '.']) ++ (dropCommon (resolveSegs cwd f) (resolveSegs cwd t)).2 with
  | nil =>
    rw [hL] at hrt
    rw [hdot'] at hrt
    cases hrt
  | cons s rest =>
    obtain ⟨hs1, hs2, hs3⟩ := head_seg_facts cwd f t s rest hL
    rw [hL, joinSegsL_cons] at hrt
    cases s with
    | nil => exact absurd rfl hs1
    | cons sc s' =>
      rw [hdot', List.cons_append] at hrt
      injection hrt with h1 h2
      subst h1
      cases s' with
      | nil => exact absurd rfl hs2
      | cons c2 s'' =>
        have hc2 : c2 ≠ '/' := by
          intro hcontra
          exact hs3 (by rw [hcontra]; exact List.mem_cons_of_mem _ (List.mem_cons_self _ _))
        have hfinal : (relative cwd f t).toList = '.' :: c2 ::
            (s'' ++ if rest = [] then [] else '/' :: joinSegsL rest) := by
          rw [hdot', h2]
          rfl
        rw [matchesHiddenRe_of_toList _ _ _ _ hfinal]
        simp [hc2]

theorem dropCommon_fst_nil_of_validate (cwd vaultPath p : String) (op : Operation)
    (h : validateFileOperation cwd vaultPath p op = true) :
    (dropCommon (resolveSegs cwd vaultPath) (resolveSegs cwd p)).1 = [] := by
  obtain ⟨-, -, -, hhid⟩ := (validate_true_iff cwd vaultPath p op).mp h
  cases hF : (dropCommon (resolveSegs cwd vaultPath) (resolveSegs cwd p)).1 with
  | nil => rfl
  | cons a F' =>
    exfalso
    have hrt := relative_toList cwd vaultPath p
    rw [hF, List.map_cons, List.cons_append, joinSegsL_cons, List.cons_append,
      List.cons_append, List.nil_append] at hrt
    apply hhid
    constructor
    · rw [matchesHiddenRe_of_toList _ _ _ _ hrt]
      decide
    · intro hcl
      obtain ⟨tlc, htlc⟩ := (jsStartsWith_eq _ _).mp hcl
      rw [hrt] at htlc
      rw [show (".claude/" : String).toList = '.' :: 'c' :: "laude/".toList from rfl,
        List.cons_append, List.cons_append] at htlc
      injection htlc with ha htlc2
      injection htlc2 with hb htlc3
      exact absurd hb (by decide)

/-- Claim C9: the `.obsidian/plugins/triple-crown/` carve-out is unreachable.
Any path inside the vault whose vault-relative form starts with
`.obsidian/plugins/triple-crown/` is denied for every operation, because the
subsequent hidden-file rule rejects every dot-prefixed relative path that
does not start with `.claude/`. -/
theorem C9_carveout_unreachable (cwd vaultPath p : String) (op : Operation)
    (_hin : isPathInVault cwd vaultPath p = true)
    (hrel : jsStartsWith (relative cwd vaultPath p) ".obsidian/plugins/triple-crown/" = true) :
    validateFileOperation cwd vaultPath p op = false := by
  cases hb : validateFileOperation cwd vaultPath p op
  · rfl
  · exfalso
    obtain ⟨-, -, -, hhid⟩ := (validate_true_iff cwd vaultPath p op).mp hb
    apply hhid
    obtain ⟨tl, htl⟩ := (jsStartsWith_eq _ _).mp hrel
    have h2 : (relative cwd vaultPath p).toList =
        '.' :: 'o' :: ("bsidian/plugins/triple-crown/".toList ++ tl) := by
      rw [← htl]
      rfl
    constructor
    · rw [matchesHiddenRe_of_toList _ _ _ _ h2]
      decide
    · intro hcl
      have hcl2 := List.prefix_of_prefix_length_le ((jsStartsWith_eq _ _).mp hcl)
        ((jsStartsWith_eq _ _).mp hrel) (by decide)
      exact absurd hcl2 (by decide)

theorem C9_carveout_unreachable_witness :
    validateFileOperation "/" "/vault" "/vault/.obsidian/plugins/triple-crown/data.json"
      Operation.read = false :=
  C9_carveout_unreachable "/" "/vault" "/vault/.obsidian/plugins/triple-crown/data.json"
    Operation.read (by decide) (by decide)

/-- Claim C10: inside the vault, when the relative path's first segment
begins with a dot, `validateFileOperation` accepts only relative paths that
begin with the literal prefix `.claude/`; in particular the relative paths
`.claude` (no trailing separator) and `.clauderc` are denied. -/
theorem C10_dot_segment_needs_claude :
    (∀ cwd vaultPath p op, validateFileOperation cwd vaultPath p op = true →
      jsStartsWith (relative cwd vaultPath p) "." = true →
      jsStartsWith (relative cwd vaultPath p) ".claude/" = true) ∧
    validateFileOperation "/" "/vault" "/vault/.claude" Operation.read = false ∧
    validateFileOperation "/" "/vault" "/vault/.clauderc" Operation.read = false := by
  refine ⟨?_, by decide, by decide⟩
  intro cwd vaultPath p op hv hdot
  obtain ⟨-, -, -, hhid⟩ := (validate_true_iff cwd vaultPath p op).mp hv
  by_cases hcl : jsStartsWith (relative cwd vaultPath p) ".claude/" = true
  · exact hcl
  · exact absurd ⟨matchesHidden_of_dot_head cwd vaultPath p hdot, hcl⟩ hhid

theorem C10_dot_segment_needs_claude_witness :
    jsStartsWith (relative "/" "/vault" "/vault/.claude/settings.json") ".claude/" = true :=
  C10_dot_segment_needs_claude.1 "/" "/vault" "/vault/.claude/settings.json"
    Operation.read (by decide) (by decide)

theorem splitSlash_cons_slash (cs : List Char) :
    splitSlash ('/' :: cs) = [] :: splitSlash cs := by
  simp [splitSlash]

theorem splitSlash_joinSegsL (S : List Seg) (hS : S ≠ [])
    (h : ∀ s ∈ S, s ≠ [] ∧ '/' ∉ s) :
    splitSlash (joinSegsL S) = S := by
  induction S with
  | nil => exact absurd rfl hS
  | cons s S' ih =>
    cases hS' : S' with
    | nil =>
      rw [joinSegsL]
      exact splitSlash_of_no_slash s (h s (List.mem_cons_self _ _)).2
    | cons t rest =>
      subst hS'
      rw [joinSegsL_cons, if_neg (by simp), splitSlash_append,
        splitSlash_of_no_slash s (h s (List.mem_cons_self _ _)).2,
        ih (by simp) (fun u hu => h u (List.mem_cons_of_mem _ hu))]
      rfl

theorem normStep_clean_acc (acc : List Seg) (s : Seg) (h1 : s ≠ []) (h2 : s ≠ ['.'])
    (h3 : s ≠ ['.', '.']) : normStep acc s = acc ++ [s] := by
  unfold normStep
  rw [if_neg (not_or.mpr ⟨h1, h2⟩), if_neg h3]

theorem foldl_normStep_clean (S : List Seg) :
    ∀ acc, (∀ s ∈ S, s ≠ [] ∧ s ≠ ['.'] ∧ s ≠ ['.', '.']) →
      List.foldl normStep acc S = acc ++ S := by
  induction S with
  | nil => simp
  | cons s S' ih =>
    intro acc h
    obtain ⟨h1, h2, h3⟩ := h s (List.mem_cons_self _ _)
    rw [List.foldl_cons, normStep_clean_acc acc s h1 h2 h3,
      ih (acc ++ [s]) (fun u hu => h u (List.mem_cons_of_mem _ hu))]
    simp

theorem foldl_normStep_replicate (n : Nat) :
    ∀ (c G : List Seg), G.length = n →
      List.foldl normStep (c ++ G) (List.replicate n ['.', '.']) = c := by
  induction n with
  | zero =>
    intro c G hG
    rw [List.length_eq_zero] at hG
    subst hG
    simp
  | succ n ih =>
    intro c G hG
    rw [List.replicate_succ, List.foldl_cons]
    have hGne : G ≠ [] := by
      intro hcontra
      rw [hcontra] at hG
      simp at hG
    have h1 : normStep (c ++ G) ['.', '.'] = c ++ G.dropLast := by
      unfold normStep
      rw [if_neg (by simp), if_pos rfl]
      exact List.dropLast_append_of_ne_nil c hGne
    rw [h1]
    refine ih c G.dropLast ?_
    rw [List.length_dropLast, hG]
    rfl

theorem map_const_replicate (F : List Seg) :
    F.map (fun _ => (['.', '.'] : Seg)) = List.replicate F.length ['.', '.'] := by
  induction F with
  | nil => rfl
  | cons a F' ih => simp [ih, List.replicate_succ]

theorem resolveSegs_segsToAbs (cwd : String) (S : List Seg)
    (h : ∀ s ∈ S, cleanSeg s) :
    resolveSegs cwd (segsToAbs S) = S := by
  unfold segsToAbs resolveSegs
  rw [toList_mk]
  rw [show isAbsoluteL ('/' :: joinSegsL S) = true from by simp [isAbsoluteL]]
  simp only [if_true]
  rw [splitSlash_cons_slash]
  cases hS : S with
  | nil => decide
  | cons s S' =>
    rw [splitSlash_joinSegsL (s :: S') (by simp)
      (fun u hu => ⟨((hS ▸ h) u hu).1, ((hS ▸ h) u hu).2.2.2⟩)]
    unfold normFold
    rw [List.foldl_cons, show normStep [] [] = [] from rfl]
    rw [foldl_normStep_clean (s :: S') []
      (fun u hu => ⟨((hS ▸ h) u hu).1, ((hS ▸ h) u hu).2.1, ((hS ▸ h) u hu).2.2.1⟩)]
    rfl

theorem toList_eq_nil (s : String) (h : s.toList = []) : s = "" := by
  obtain ⟨data⟩ := s
  simp only [String.toList] at h
  subst h
  rfl

theorem resolveSegs_abs (cwd a : String) (ha : isAbsoluteL a.toList = true) :
    resolveSegs cwd a = normFold (splitSlash a.toList) := by
  unfold resolveSegs
  rw [ha]
  rfl

theorem resolveSegs_joinPath_seg (cwd a d : String)
    (ha : isAbsoluteL a.toList = true)
    (h1 : d.toList ≠ []) (h2 : d.toList ≠ ['.']) (h3 : d.toList ≠ ['.', '.'])
    (h4 : '/' ∉ d.toList) :
    resolveSegs cwd (joinPath a d) = resolveSegs cwd a ++ [d.toList] := by
  have hane : a ≠ "" := by
    intro hcontra
    rw [hcontra] at ha
    simp [isAbsoluteL] at ha
  have hdne : d ≠ "" := by
    intro hcontra
    rw [hcontra] at h1
    exact h1 rfl
  have hcsabs : isAbsoluteL (a.toList ++ '/' :: d.toList) = true := by
    obtain ⟨t, ht⟩ := (isAbsoluteL_iff _).mp ha
    rw [ht]
    simp [isAbsoluteL]
  have hclean : ∀ s ∈ normFold (splitSlash a.toList) ++ [d.toList], cleanSeg s := by
    intro s hs
    rcases List.mem_append.mp hs with hs1 | hs2
    · exact cleanSeg_of_mem_normFold a.toList s hs1
    · rw [List.mem_singleton] at hs2
      subst hs2
      exact ⟨h1, h2, h3, h4⟩
  unfold joinPath
  rw [if_neg hane, if_neg hdne]
  dsimp only
  rw [hcsabs]
  simp only [if_true]
  rw [splitSlash_append, splitSlash_of_no_slash d.toList h4, List.foldl_append]
  simp only [List.foldl_cons, List.foldl_nil]
  rw [normStep_clean_acc _ _ h1 h2 h3]
  rw [show (⟨'/' :: joinSegsL (List.foldl normStep [] (splitSlash a.toList) ++ [d.toList])⟩ :
      String) = segsToAbs (normFold (splitSlash a.toList) ++ [d.toList]) from rfl]
  rw [resolveSegs_segsToAbs cwd _ hclean, resolveSegs_abs cwd a ha]

theorem blocked_head_contra (cwd vaultPath p : String) (op : Operation)
    (h : validateFileOperation cwd vaultPath p op = true)
    (c2 : Char) (hne : c2 ≠ 'c') (hns : c2 ≠ '/') (s'' : List Char) (T' : List Seg)
    (hT : (dropCommon (resolveSegs cwd vaultPath) (resolveSegs cwd p)).2 =
      ('.' :: c2 :: s'') :: T') :
    False := by
  have hF := dropCommon_fst_nil_of_validate cwd vaultPath p op h
  obtain ⟨-, -, -, hhid⟩ := (validate_true_iff cwd vaultPath p op).mp h
  have hrt := relative_toList cwd vaultPath p
  rw [hF, List.map_nil, List.nil_append, hT, joinSegsL_cons, List.cons_append,
    List.cons_append] at hrt
  apply hhid
  constructor
  · rw [matchesHiddenRe_of_toList _ _ _ _ hrt]
    simp [hns]
  · intro hcl
    obtain ⟨tlc, htlc⟩ := (jsStartsWith_eq _ _).mp hcl
    rw [hrt] at htlc
    rw [show (".claude/" : String).toList = '.' :: 'c' :: "laude/".toList from rfl,
      List.cons_append, List.cons_append] at htlc
    injection htlc with ha htlc2
    injection htlc2 with hb htlc3
    exact hne hb.symm

/-- Claim C2 (counterexample): the hidden-file rule only inspects the first
segment of the relative path, so a file nested inside the dot-prefixed
directory `.secret` (which is not `.claude`) is accepted by
`validateFileOperation`, violating the claimed invariant. -/
theorem C2_counterexample :
    validateFileOperation "/" "/vault" "/vault/notes/.secret/x.md" Operation.read = true ∧
    jsStartsWith (relative "/" "/vault" "/vault/notes/.secret/x.md") "notes/.secret/" = true := by
  decide

/-- Claim C2 (amended): with an absolute vault root, every path accepted by
`validateFileOperation` resolves to a proper descendant of the resolved
root, is not a descendant of either `blockedPaths` entry (`root/.obsidian`,
`root/.git`), and has a relative path whose first segment is not
dot-prefixed unless the relative path starts with `.claude/` (nested
dot-directories below the first segment are not inspected). -/
theorem C2_amended (cwd vaultPath p : String) (op : Operation)
    (hv : isAbsoluteL vaultPath.toList = true)
    (h : validateFileOperation cwd vaultPath p op = true) :
    resolveSegs cwd vaultPath <+: resolveSegs cwd p ∧
    resolveSegs cwd vaultPath ≠ resolveSegs cwd p ∧
    (∀ b ∈ (createSecurityContext vaultPath).blockedPaths,
      ¬ resolveSegs cwd b <+: resolveSegs cwd p) ∧
    (jsStartsWith (relative cwd vaultPath p) "." = false ∨
      jsStartsWith (relative cwd vaultPath p) ".claude/" = true) := by
  have hF := dropCommon_fst_nil_of_validate cwd vaultPath p op h
  obtain ⟨hin, hrelne, hob, hhid⟩ := (validate_true_iff cwd vaultPath p op).mp h
  obtain ⟨c, hc1, hc2⟩ := dropCommon_spec (resolveSegs cwd vaultPath) (resolveSegs cwd p)
  rw [hF, List.append_nil] at hc1
  rw [← hc1] at hc2
  have hTne : (dropCommon (resolveSegs cwd vaultPath) (resolveSegs cwd p)).2 ≠ [] := by
    intro hTnil
    apply hrelne
    apply toList_eq_nil
    rw [relative_toList, hF, hTnil]
    rfl
  refine ⟨⟨_, hc2.symm⟩, ?_, ?_, ?_⟩
  · intro hVP
    exact hTne (List.self_eq_append_right.mp (hVP.trans hc2))
  · intro b hb
    have hbp : b = joinPath vaultPath ".obsidian" ∨ b = joinPath vaultPath ".git" := by
      simpa [createSecurityContext] using hb
    intro hpre
    rcases hbp with hb1 | hb1 <;> rw [hb1] at hpre
    · rw [resolveSegs_joinPath_seg cwd vaultPath ".obsidian" hv (by decide) (by decide)
        (by decide) (by decide), hc2] at hpre
      have h2 := (List.prefix_append_right_inj (resolveSegs cwd vaultPath)).mp hpre
      obtain ⟨T', hT'⟩ := h2
      refine blocked_head_contra cwd vaultPath p op h 'o' (by decide) (by decide)
        "bsidian".toList T' ?_
      rw [← hT']
      rfl
    · rw [resolveSegs_joinPath_seg cwd vaultPath ".git" hv (by decide) (by decide)
        (by decide) (by decide), hc2] at hpre
      have h2 := (List.prefix_append_right_inj (resolveSegs cwd vaultPath)).mp hpre
      obtain ⟨T', hT'⟩ := h2
      refine blocked_head_contra cwd vaultPath p op h 'g' (by decide) (by decide)
        "it".toList T' ?_
      rw [← hT']
      rfl
  · by_cases hdot : jsStartsWith (relative cwd vaultPath p) "." = true
    · right
      by_cases hcl : jsStartsWith (relative cwd vaultPath p) ".claude/" = true
      · exact hcl
      · exact absurd ⟨matchesHidden_of_dot_head cwd vaultPath p hdot, hcl⟩ hhid
    · left
      cases hx : jsStartsWith (relative cwd vaultPath p) "."
      · rfl
      · exact absurd hx hdot

theorem C2_amended_witness :
    resolveSegs "/" "/vault" <+: resolveSegs "/" "/vault/notes/a.md" ∧
    resolveSegs "/" "/vault" ≠ resolveSegs "/" "/vault/notes/a.md" ∧
    (∀ b ∈ (createSecurityContext "/vault").blockedPaths,
      ¬ resolveSegs "/" b <+: resolveSegs "/" "/vault/notes/a.md") ∧
    (jsStartsWith (relative "/" "/vault" "/vault/notes/a.md") "." = false ∨
      jsStartsWith (relative "/" "/vault" "/vault/notes/a.md") ".claude/" = true) :=
  C2_amended "/" "/vault" "/vault/notes/a.md" Operation.read (by decide) (by decide)

theorem joinPath_relative_resolve (cwd vaultPath x : String)
    (hv : isAbsoluteL vaultPath.toList = true) :
    joinPath vaultPath (relative cwd vaultPath x) = resolve cwd x := by
  have hvne : vaultPath ≠ "" := by
    intro hcontra
    rw [hcontra] at hv
    simp [isAbsoluteL] at hv
  obtain ⟨c, hc1, hc2⟩ := dropCommon_spec (resolveSegs cwd vaultPath) (resolveSegs cwd x)
  have hTclean : ∀ s ∈ (dropCommon (resolveSegs cwd vaultPath) (resolveSegs cwd x)).2,
      cleanSeg s := fun s hs =>
    cleanSeg_of_mem_resolveSegs cwd x s (hc2 ▸ List.mem_append_right c hs)
  by_cases hrelnil : (dropCommon (resolveSegs cwd vaultPath) (resolveSegs cwd x)).1.map
      (fun _ => (['.', '.'] : Seg)) ++
      (dropCommon (resolveSegs cwd vaultPath) (resolveSegs cwd x)).2 = []
  · obtain ⟨hmF, hmT⟩ := List.append_eq_nil.mp hrelnil
    have hFnil : (dropCommon (resolveSegs cwd vaultPath) (resolveSegs cwd x)).1 = [] :=
      List.map_eq_nil_iff.mp hmF
    rw [hFnil, List.append_nil] at hc1
    rw [hmT, List.append_nil] at hc2
    have hVP : resolveSegs cwd vaultPath = resolveSegs cwd x := hc1.trans hc2.symm
    have hrel0 : relative cwd vaultPath x = "" := by
      apply toList_eq_nil
      rw [relative_toList, hrelnil]
      rfl
    rw [hrel0]
    unfold joinPath
    rw [if_neg hvne, if_pos rfl]
    dsimp only
    rw [hv]
    simp only [if_true]
    have e1 : segsToAbs (resolveSegs cwd vaultPath) =
        ⟨'/' :: joinSegsL (List.foldl normStep [] (splitSlash vaultPath.toList))⟩ := by
      rw [resolveSegs_abs cwd vaultPath hv]
      rfl
    rw [← e1, hVP]
    rfl
  · have hmem : ∀ s ∈ (dropCommon (resolveSegs cwd vaultPath) (resolveSegs cwd x)).1.map
        (fun _ => (['.', '.'] : Seg)) ++
        (dropCommon (resolveSegs cwd vaultPath) (resolveSegs cwd x)).2,
        s ≠ [] ∧ '/' ∉ s := by
      intro s hs
      rcases List.mem_append.mp hs with h1 | h1
      · obtain ⟨u, hu, he⟩ := List.mem_map.mp h1
        rw [← he]
        exact ⟨by simp, by simp⟩
      · exact ⟨(hTclean s h1).1, (hTclean s h1).2.2.2⟩
    have hrelne : relative cwd vaultPath x ≠ "" := by
      intro hcontra
      have h0 : (relative cwd vaultPath x).toList = [] := by
        rw [hcontra]
        rfl
      rw [relative_toList] at h0
      exact joinSegsL_ne_nil _ hrelnil (fun s hs => (hmem s hs).1) h0
    unfold joinPath
    rw [if_neg hvne, if_neg hrelne]
    dsimp only
    have hcsabs : isAbsoluteL (vaultPath.toList ++ '/' ::
        (relative cwd vaultPath x).toList) = true := by
      obtain ⟨t, ht⟩ := (isAbsoluteL_iff _).mp hv
      rw [ht]
      simp [isAbsoluteL]
    rw [hcsabs]
    simp only [if_true]
    rw [splitSlash_append,
      show (relative cwd vaultPath x).toList =
        joinSegsL ((dropCommon (resolveSegs cwd vaultPath) (resolveSegs cwd x)).1.map
          (fun _ => (['.', '.'] : Seg)) ++
          (dropCommon (resolveSegs cwd vaultPath) (resolveSegs cwd x)).2)
        from relative_toList cwd vaultPath x,
      splitSlash_joinSegsL _ hrelnil hmem, List.foldl_append,
      show List.foldl normStep [] (splitSlash vaultPath.toList) = resolveSegs cwd vaultPath
        from (resolveSegs_abs cwd vaultPath hv).symm,
      List.foldl_append]
    have hpops : List.foldl normStep (resolveSegs cwd vaultPath)
        ((dropCommon (resolveSegs cwd vaultPath) (resolveSegs cwd x)).1.map
          (fun _ => (['.', '.'] : Seg))) = c := by
      generalize hG : (dropCommon (resolveSegs cwd vaultPath) (resolveSegs cwd x)).1 = G at hc1
      rw [map_const_replicate, hc1]
      exact foldl_normStep_replicate G.length c G rfl
    rw [hpops,
      foldl_normStep_clean _ c (fun s hs =>
        ⟨(hTclean s hs).1, (hTclean s hs).2.1, (hTclean s hs).2.2.1⟩),
      ← hc2]
    rfl

/-- Claim C7 (counterexample): an accepted absolute input is returned by
`sanitizePath` as given, so re-joining `getRelativePath`'s result onto the
root yields the normalized form, which differs from the accepted path when
that path was not normalized. -/
theorem C7_counterexample :
    sanitizePath "/" "/vault" "/vault/x/../y" = some "/vault/x/../y" ∧
    getRelativePath "/" "/vault" "/vault/x/../y" = some "y" ∧
    joinPath "/vault" "y" = "/vault/y" ∧
    ("/vault/y" : String) ≠ "/vault/x/../y" := by
  decide

/-- Claim C7 (amended): for an absolute vault root, joining the root with
`getRelativePath (sanitizePath p)` reproduces the normalized resolved form
of the accepted path (which is the accepted path itself exactly when that
path is already normalized, as is always the case for relative inputs). -/
theorem C7_amended (cwd vaultPath p x : String)
    (hv : isAbsoluteL vaultPath.toList = true)
    (h : sanitizePath cwd vaultPath p = some x) :
    ∃ r, getRelativePath cwd vaultPath x = some r ∧
      joinPath vaultPath r = resolve cwd x := by
  have hin := sanitize_sound cwd vaultPath p x h
  refine ⟨relative cwd vaultPath x, ?_, joinPath_relative_resolve cwd vaultPath x hv⟩
  unfold getRelativePath
  rw [hin]
  rfl

theorem C7_amended_witness :
    ∃ r, getRelativePath "/" "/vault" "/vault/notes/b.md" = some r ∧
      joinPath "/vault" r = resolve "/" "/vault/notes/b.md" :=
  C7_amended "/" "/vault" "notes/b.md" "/vault/notes/b.md" (by decide) (by decide)

theorem normStep_ddot (acc : List Seg) : normStep acc ['.', '.'] = acc.dropLast := rfl

theorem resolve_dot (cwd : String) :
    resolve cwd "." = segsToAbs (normFold (splitSlash cwd.toList)) := by
  unfold resolve resolveSegs
  rw [show isAbsoluteL (String.toList ".") = false from rfl]
  simp only [Bool.false_eq_true, if_false]
  rw [show (String.toList ".") = ['.'] from rfl,
    splitSlash_append cwd.toList ['.'],
    show splitSlash ['.'] = [['.']] from rfl]
  unfold normFold
  rw [List.foldl_append]
  rfl

theorem tv_split (A u : List Char)
    (h : String.toList "tmp/test-vault" = A ++ '/' :: u) :
    A = String.toList "tmp" ∧ u = String.toList "test-vault" := by
  have hlen : A.length + (1 + u.length) = 14 := by
    have h14 := congrArg List.length h
    simp only [List.length_append, List.length_cons] at h14
    rw [show (String.toList "tmp/test-vault").length = 14 from rfl] at h14
    omega
  have hget : (String.toList "tmp/test-vault")[A.length]? = some '/' := by
    rw [h, List.getElem?_append_right (Nat.le_refl _)]
    simp
  have honly : ∀ i : Nat, i < 14 → ((String.toList "tmp/test-vault")[i]? = some '/' → i = 3) := by
    decide
  have hA3 : A.length = 3 := honly A.length (by omega) hget
  have hA : A = String.toList "tmp" := by
    have htake : A = (String.toList "tmp/test-vault").take A.length := by
      rw [h, List.take_left]
    rw [hA3] at htake
    rw [htake]
    decide
  refine ⟨hA, ?_⟩
  have hdrop : '/' :: u = (String.toList "tmp/test-vault").drop A.length := by
    rw [h, List.drop_left]
  rw [hA3] at hdrop
  have h2 : '/' :: u = '/' :: String.toList "test-vault" := by
    rw [hdrop]
    decide
  injection h2

theorem tv_not_prefix_ext (N S : List Seg)
    (hN : ¬ String.toList "/tmp/test-vault" <+: '/' :: joinSegsL N)
    (h1 : ¬ String.toList "tmp/test-vault" <+: joinSegsL S)
    (h2 : ¬ String.toList "test-vault" <+: joinSegsL S)
    (hS : S ≠ []) :
    ¬ String.toList "/tmp/test-vault" <+: '/' :: joinSegsL (N ++ S) := by
  intro hcontra
  cases hNe : N with
  | nil =>
    rw [hNe, List.nil_append] at hcontra
    exact h1 (List.cons_prefix_cons.mp hcontra).2
  | cons n N' =>
    rw [joinSegsL_append N S (by rw [hNe]; simp) hS] at hcontra
    have hcontra2 : String.toList "tmp/test-vault" <+:
        joinSegsL N ++ '/' :: joinSegsL S :=
      (List.cons_prefix_cons.mp hcontra).2
    rcases splitPre_of_append_cons _ (joinSegsL N) '/' (joinSegsL S) hcontra2 with
      hA | ⟨u, hu, huS⟩
    · exact hN (List.cons_prefix_cons.mpr ⟨rfl, hA⟩)
    · obtain ⟨-, hu10⟩ := tv_split (joinSegsL N) u hu
      rw [hu10] at huS
      exact h2 huS

theorem not_tv_of_dropLast (N : List Seg)
    (hN : ¬ String.toList "/tmp/test-vault" <+: '/' :: joinSegsL N) :
    ¬ String.toList "/tmp/test-vault" <+: '/' :: joinSegsL N.dropLast := by
  intro hcontra
  cases hd : N.dropLast with
  | nil =>
    rw [hd] at hcontra
    have hle := hcontra.length_le
    rw [show (String.toList "/tmp/test-vault").length = 15 from rfl] at hle
    simp [joinSegsL] at hle
  | cons d D =>
    apply hN
    have hNne : N ≠ [] := by
      intro hcontra2
      rw [hcontra2] at hd
      cases hd
    have hsplit : N = N.dropLast ++ [N.getLast hNne] :=
      (List.dropLast_concat_getLast hNne).symm
    have hJ : joinSegsL N = joinSegsL N.dropLast ++ '/' :: joinSegsL [N.getLast hNne] := by
      conv_lhs => rw [hsplit]
      exact joinSegsL_append _ _ (by rw [hd]; simp) (by simp)
    refine hcontra.trans ?_
    rw [hJ, hd]
    exact List.cons_prefix_cons.mpr ⟨rfl, List.prefix_append _ _⟩

/-- Claim C6: with vault root `/tmp/test-vault`, the literal inputs
`/etc/passwd`, `../../../etc/hosts`, `C:\Windows\System32` and
`~/.ssh/id_rsa` are all rejected by `isPathInVault`, for every working
directory whose normalized form does not itself start with the root string
(relative candidates resolve against the working directory, so a working
directory inside the sandbox root is the one configuration this check
cannot distinguish). -/
theorem C6_literal_inputs_rejected (cwd : String)
    (hcwd : jsStartsWith (resolve cwd ".") "/tmp/test-vault" = false) :
    isPathInVault cwd "/tmp/test-vault" "/etc/passwd" = false ∧
    isPathInVault cwd "/tmp/test-vault" "../../../etc/hosts" = false ∧
    isPathInVault cwd "/tmp/test-vault" "C:\\Windows\\System32" = false ∧
    isPathInVault cwd "/tmp/test-vault" "~/.ssh/id_rsa" = false := by
  have hN : ¬ String.toList "/tmp/test-vault" <+:
      '/' :: joinSegsL (normFold (splitSlash cwd.toList)) := by
    have h0 := (jsStartsWith_eq_false _ _).mp hcwd
    rw [resolve_dot] at h0
    exact h0
  have hRv : resolve cwd "/tmp/test-vault" = "/tmp/test-vault" := rfl
  refine ⟨?_, ?_, ?_, ?_⟩
  · unfold isPathInVault
    rw [hRv, show resolve cwd "/etc/passwd" = "/etc/passwd" from rfl]
    decide
  · unfold isPathInVault
    rw [hRv]
    apply (jsStartsWith_eq_false _ _).mpr
    have hsegs : resolveSegs cwd "../../../etc/hosts" =
        (normFold (splitSlash cwd.toList)).dropLast.dropLast.dropLast ++
          [String.toList "etc", String.toList "hosts"] := by
      unfold resolveSegs
      rw [show isAbsoluteL (String.toList "../../../etc/hosts") = false from rfl]
      simp only [Bool.false_eq_true, if_false]
      rw [splitSlash_append cwd.toList (String.toList "../../../etc/hosts"),
        show splitSlash (String.toList "../../../etc/hosts") =
          [['.', '.'], ['.', '.'], ['.', '.'], String.toList "etc",
            String.toList "hosts"] from rfl]
      unfold normFold
      rw [List.foldl_append]
      simp only [List.foldl_cons, List.foldl_nil]
      rw [normStep_ddot, normStep_ddot, normStep_ddot,
        normStep_clean_acc _ _ (by decide) (by decide) (by decide),
        normStep_clean_acc _ _ (by decide) (by decide) (by decide)]
      simp
    unfold resolve
    rw [hsegs]
    exact tv_not_prefix_ext _ _
      (not_tv_of_dropLast _ (not_tv_of_dropLast _ (not_tv_of_dropLast _ hN)))
      (by decide) (by decide) (by simp)
  · unfold isPathInVault
    rw [hRv]
    apply (jsStartsWith_eq_false _ _).mpr
    have hsegs : resolveSegs cwd "C:\\Windows\\System32" =
        normFold (splitSlash cwd.toList) ++ [String.toList "C:\\Windows\\System32"] := by
      unfold resolveSegs
      rw [show isAbsoluteL (String.toList "C:\\Windows\\System32") = false from rfl]
      simp only [Bool.false_eq_true, if_false]
      rw [splitSlash_append cwd.toList (String.toList "C:\\Windows\\System32"),
        show splitSlash (String.toList "C:\\Windows\\System32") =
          [String.toList "C:\\Windows\\System32"] from rfl]
      unfold normFold
      rw [List.foldl_append]
      simp only [List.foldl_cons, List.foldl_nil]
      rw [normStep_clean_acc _ _ (by decide) (by decide) (by decide)]
    unfold resolve
    rw [hsegs]
    exact tv_not_prefix_ext _ _ hN (by decide) (by decide) (by simp)
  · unfold isPathInVault
    rw [hRv]
    apply (jsStartsWith_eq_false _ _).mpr
    have hsegs : resolveSegs cwd "~/.ssh/id_rsa" =
        normFold (splitSlash cwd.toList) ++
          [['~'], String.toList ".ssh", String.toList "id_rsa"] := by
      unfold resolveSegs
      rw [show isAbsoluteL (String.toList "~/.ssh/id_rsa") = false from rfl]
      simp only [Bool.false_eq_true, if_false]
      rw [splitSlash_append cwd.toList (String.toList "~/.ssh/id_rsa"),
        show splitSlash (String.toList "~/.ssh/id_rsa") =
          [['~'], String.toList ".ssh", String.toList "id_rsa"] from rfl]
      unfold normFold
      rw [List.foldl_append]
      simp only [List.foldl_cons, List.foldl_nil]
      rw [normStep_clean_acc _ _ (by decide) (by decide) (by decide),
        normStep_clean_acc _ _ (by decide) (by decide) (by decide),
        normStep_clean_acc _ _ (by decide) (by decide) (by decide)]
      simp
    unfold resolve
    rw [hsegs]
    exact tv_not_prefix_ext _ _ hN (by decide) (by decide) (by simp)

theorem C6_literal_inputs_rejected_witness :
    isPathInVault "/home/user" "/tmp/test-vault" "/etc/passwd" = false ∧
    isPathInVault "/home/user" "/tmp/test-vault" "../../../etc/hosts" = false ∧
    isPathInVault "/home/user" "/tmp/test-vault" "C:\\Windows\\System32" = false ∧
    isPathInVault "/home/user" "/tmp/test-vault" "~/.ssh/id_rsa" = false :=
  C6_literal_inputs_rejected "/home/user" (by decide)
